import Mathlib

/-!
Verification development for the narrato audio-book repository.

Strings of the TypeScript source are modelled as `List Char`.  The components
embedded here:

* the sentence-based chunker `chunkText` of `src/components/AudioPlayer.tsx`
  (identical copy in the unnamed player variant);
* the paragraph splitters of `src/lib/pronunciationDict.ts`
  (`splitIntoParagraphs`, `smartSplitParagraphs`);
* the playback session of the player variant embedded after the SQL migration
  (`handlePlayAll`, `playParagraph`, `handleStop`, ... driven by `abortRef`);
* the `handleRate` / `handleStop` logic of `src/components/AudioPlayer.tsx`;
* the `text-to-speech` edge function of
  `supabase/functions/text-to-speech/index.ts`;
* a spec-modelled remote-to-local fallback policy (no UI variant in the
  repository wires `synthesizeOnline` to a fallback, so that policy is taken
  from the specification text, see `selectBackend`).
-/

/-- Terminal punctuation characters of the sentence regex
`/[^.!?]+[.!?]+/g` used by `chunkText` and `smartSplitParagraphs`. -/
def isTerm (c : Char) : Bool :=
  c = '.' || c = '!' || c = '?'

/-- Whitespace recognised by the model of JavaScript `String.prototype.trim`
(the ASCII whitespace characters; the source texts contain no exotic
whitespace). -/
def isWs (c : Char) : Bool :=
  c = ' ' || c = '\t' || c = '\n' || c = '\r' || c = '\x0b' || c = '\x0c'

/-- Model of JavaScript `s.trim()`: drop leading and trailing whitespace. -/
def trimChars (l : List Char) : List Char :=
  ((l.dropWhile isWs).reverse.dropWhile isWs).reverse

/-- The non-whitespace characters of a string, in order.  Used to state
reconstruction of text modulo whitespace. -/
def nonWsChars (l : List Char) : List Char :=
  l.filter (fun c => !(isWs c))

/-- One-pass automaton equivalent to the global regex match
`t.match(/[^.!?]+[.!?]+/g)`.  `body` is the `[^.!?]+` part collected so far,
`punct` the `[.!?]+` part; a terminal character with nothing collected is
skipped (the regex cannot start a match there), a non-terminal character after
a non-empty `punct` closes the match greedily, exactly as the regex engine
does; a trailing `body` without any terminal never becomes a match. -/
def sentencesGo : List Char → List Char → List Char → List (List Char)
  | [], body, punct => if punct = [] then [] else [body ++ punct]
  | c :: rest, body, punct =>
    if isTerm c then
      if body = [] then sentencesGo rest [] []
      else sentencesGo rest body (punct ++ [c])
    else
      if punct = [] then sentencesGo rest (body ++ [c]) []
      else (body ++ punct) :: sentencesGo rest [c] []

/-- All matches of `/[^.!?]+[.!?]+/g` in `t` (the empty list when the match
returns `null`). -/
def matchSentences (t : List Char) : List (List Char) :=
  sentencesGo t [] []

/-- Model of `t.match(/[^.!?]+[.!?]+/g) || [t]`. -/
def sentencesOf (t : List Char) : List (List Char) :=
  if matchSentences t = [] then [t] else matchSentences t

/-- The greedy accumulation loop of `chunkText` (`AudioPlayer.tsx`, lines
60-74): `current` is the running buffer, `chunks` the output so far.  The
guard compares `(current + s).length` with `maxLen`, the append adds a `" "`
separator, both sites that push a chunk `trim` it first. -/
def chunkAux (maxLen : Nat) : List (List Char) → List Char → List (List Char) → List (List Char)
  | [], current, chunks =>
    if trimChars current = [] then chunks else chunks ++ [trimChars current]
  | s :: rest, current, chunks =>
    if maxLen < (current ++ s).length then
      if current = [] then chunkAux maxLen rest s chunks
      else chunkAux maxLen rest s (chunks ++ [trimChars current])
    else chunkAux maxLen rest (current ++ ' ' :: s) chunks

/-- Model of `chunkText(t, maxLen)` from `src/components/AudioPlayer.tsx`:
split into sentence matches (or `[t]`), accumulate greedily, and fall back to
`[t]` when no chunk was produced. -/
def chunkText (t : List Char) (maxLen : Nat := 200) : List (List Char) :=
  let cs := chunkAux maxLen (sentencesOf t) [] []
  if cs = [] then [t] else cs

/-- Pending separator characters of `splitParasGo` rendered back as text:
an optional `'\r'` followed by `nl` newline characters. -/
def crnl (sawCr : Bool) (nl : Nat) : List Char :=
  (if sawCr then ['\r'] else []) ++ List.replicate nl '\n'

/-- One-pass automaton equivalent to `text.split(/\n{2,}|\r\n{2,}/)`:
`cur` is the piece being built, `sawCr`/`nl` record a pending run that may
still become a separator (`'\r'?` followed by `nl` newlines).  A pending run
is a separator exactly when it contains at least two newlines — the first
alternative matches a maximal `'\n'` run of length ≥ 2 and the second an
`'\r'` followed by such a run, and the regex engine takes the leftmost,
greedy match, which is what resolving the maximal pending run does. -/
def splitParasGo : List Char → List (List Char) → List Char → Bool → Nat → List (List Char)
  | [], acc, cur, sawCr, nl =>
    if 2 ≤ nl then acc ++ [cur, []] else acc ++ [cur ++ crnl sawCr nl]
  | c :: rest, acc, cur, sawCr, nl =>
    if c = '\n' then splitParasGo rest acc cur sawCr (nl + 1)
    else if c = '\r' then
      if 2 ≤ nl then splitParasGo rest (acc ++ [cur]) [] true 0
      else splitParasGo rest acc (cur ++ crnl sawCr nl) true 0
    else
      if 2 ≤ nl then splitParasGo rest (acc ++ [cur]) [c] false 0
      else splitParasGo rest acc (cur ++ crnl sawCr nl ++ [c]) false 0

/-- Model of `text.split(/\n{2,}|\r\n{2,}/)`. -/
def splitParas (t : List Char) : List (List Char) :=
  splitParasGo t [] [] false 0

/-- Model of `splitIntoParagraphs` from `src/lib/pronunciationDict.ts`:
split on blank-line separators, trim each piece, keep the non-empty ones. -/
def splitIntoParagraphs (t : List Char) : List (List Char) :=
  ((splitParas t).map trimChars).filter (fun p => p ≠ [])

/-- Model of `text.split(/\n/)`. -/
def splitNL : List Char → List (List Char)
  | [] => [[]]
  | c :: rest =>
    if c = '\n' then [] :: splitNL rest
    else
      match splitNL rest with
      | [] => [[c]]
      | p :: ps => (c :: p) :: ps

/-- The sentence-grouping loop of `smartSplitParagraphs`: append each sentence
to `current` and push `current.trim()` after every third sentence and after
the last one.  `i` is the loop index. -/
def group3Aux : Nat → List (List Char) → List Char → List (List Char)
  | _, [], _ => []
  | i, s :: rest, current =>
    if (i + 1) % 3 = 0 ∨ rest = [] then
      trimChars (current ++ s) :: group3Aux (i + 1) rest []
    else group3Aux (i + 1) rest (current ++ s)

/-- Model of `smartSplitParagraphs` from `src/lib/pronunciationDict.ts`:
prefer the blank-line split, then the single-newline split, then groups of
three sentences. -/
def smartSplitParagraphs (t : List Char) : List (List Char) :=
  let byDouble := splitIntoParagraphs t
  if 1 < byDouble.length then byDouble
  else
    let byLine := ((splitNL t).map trimChars).filter (fun p => p ≠ [])
    if 1 < byLine.length then byLine
    else (group3Aux 0 (sentencesOf t) []).filter (fun p => p ≠ [])

/-- The five player states (`type PlayState`). -/
inductive PlayState
  | idle
  | loading
  | playing
  | paused
  | ended
deriving DecidableEq, Repr

/-- In-memory playback session of the player variant embedded after the SQL
migration: React state `state`/`currentParagraph`/`rate` plus the refs
`playQueueRef`, `queueIndexRef` and `abortRef`.  `currentParagraph = -1`
means "none". -/
structure Session where
  state : PlayState
  currentParagraph : Int
  playQueue : List Nat
  queueIndex : Nat
  abort : Bool
  rate : ℚ
deriving DecidableEq, Repr

/-- Result of one event handler: the updated session, the
`savePlaybackState` calls it issued (chunk index and rate), and the paragraph
index whose synthesis it started, if any. -/
structure StepOut where
  session : Session
  saves : List (Int × ℚ)
  started : Option Int
deriving DecidableEq, Repr

/-- The initial session of a freshly opened player (`useState` / `useRef`
defaults). -/
def initialSession : Session :=
  { state := .idle, currentParagraph := -1, playQueue := [], queueIndex := 0,
    abort := false, rate := 1 }

/-- Synchronous part of `playParagraph(index)` (migration variant, lines
182-196): out-of-range indices end the session; otherwise the paragraph
becomes current, the state becomes `playing`, `saveState(index)` is issued
and synthesis of the paragraph starts. -/
def playParagraph (s : Session) (index : Int) (n : Nat) : StepOut :=
  if index < 0 ∨ (n : Int) ≤ index then
    { session := { s with state := .ended }, saves := [], started := none }
  else
    { session := { s with currentParagraph := index, state := .playing },
      saves := [(index, s.rate)], started := some index }

/-- Continuation of `playParagraph` after `await synthesizeOffline(...)`
resolves (lines 196-203): discarded when `abortRef` is set, otherwise the
queue index advances and either the next queued paragraph is played or the
session ends. -/
def onSynthComplete (s : Session) (n : Nat) : StepOut :=
  if s.abort then { session := s, saves := [], started := none }
  else
    let s1 := { s with queueIndex := s.queueIndex + 1 }
    if s1.queueIndex < s.playQueue.length ∧ s.abort = false then
      playParagraph s1 ((s.playQueue.getD s1.queueIndex 0 : Nat) : Int) n
    else
      { session := { s1 with state := .ended }, saves := [], started := none }

/-- The `catch` branch of `playParagraph`: a synthesis error sets the state
to `idle`. -/
def onSynthError (s : Session) : StepOut :=
  { session := { s with state := .idle }, saves := [], started := none }

/-- Queue construction of `handlePlayAll` (lines 212-214): a non-empty
selection is sorted ascending (`Array.from(set).sort((a, b) => a - b)`), an
empty selection yields every paragraph index in order. -/
def buildQueue (selection : List Nat) (n : Nat) : List Nat :=
  if 0 < selection.length then selection.insertionSort (· ≤ ·) else List.range n

/-- Model of `handlePlayAll` (lines 210-219): clear `abortRef`, install the
queue, reset the queue index and play the first queued paragraph.  (With no
paragraphs and no selection the queue is empty and `queue[0]` is `undefined`
in JavaScript; that unreachable corner is modelled as starting nothing.) -/
def handlePlayAll (s : Session) (selection : List Nat) (n : Nat) : StepOut :=
  let queue := buildQueue selection n
  let s1 := { s with abort := false, playQueue := queue, queueIndex := 0 }
  match queue with
  | [] => { session := s1, saves := [], started := none }
  | q0 :: _ => playParagraph s1 (q0 : Int) n

/-- Model of `handlePlaySingle(index)` (lines 221-226). -/
def handlePlaySingle (s : Session) (index : Nat) (n : Nat) : StepOut :=
  let s1 := { s with abort := false, playQueue := [index], queueIndex := 0 }
  playParagraph s1 (index : Int) n

/-- Model of `handlePause` (lines 228-231): `pauseTTS()` then state
`paused`. -/
def handlePause (s : Session) : StepOut :=
  { session := { s with state := .paused }, saves := [], started := none }

/-- Model of `handleResume` (lines 233-236): `resumeTTS()` then state
`playing`. -/
def handleResume (s : Session) : StepOut :=
  { session := { s with state := .playing }, saves := [], started := none }

/-- Model of `handleStop` (migration variant, lines 238-243): set `abortRef`,
stop the speech engine, become `idle`, clear the current paragraph. -/
def handleStop (s : Session) : StepOut :=
  { session := { s with abort := true, state := .idle, currentParagraph := -1 },
    saves := [], started := none }

/-- A `playback_state` row as returned by `getPlaybackState`. -/
structure PersistedState where
  chunkIndex : Int
  speed : ℚ
deriving DecidableEq, Repr

/-- The load effect at player open (migration variant, lines 155-165): a
persisted record seeds the rate, and the chunk index too when it is within
range; nothing else changes and no synthesis starts. -/
def applyLoadedState (s : Session) (ps : Option PersistedState) (n : Nat) : Session :=
  match ps with
  | none => s
  | some p =>
    let s1 := { s with rate := p.speed }
    if 0 ≤ p.chunkIndex ∧ p.chunkIndex < (n : Int) then
      { s1 with currentParagraph := p.chunkIndex }
    else s1

/-- The emotion tones of `src/components/AudioPlayer.tsx`. -/
inductive EmotionTone
  | neutral
  | calm
  | excited
  | dramatic
deriving DecidableEq, Repr

/-- The `rate_mod` column of `EMOTION_CONFIG`. -/
def rate_mod : EmotionTone → ℚ
  | .neutral => 1
  | .calm => 85 / 100
  | .excited => 11 / 10
  | .dramatic => 9 / 10

/-- The `pitch` column of `EMOTION_CONFIG`. -/
def pitchCfg : EmotionTone → ℚ
  | .neutral => 1
  | .calm => 9 / 10
  | .excited => 12 / 10
  | .dramatic => 8 / 10

/-- The session pieces of the `src/components/AudioPlayer.tsx` variant that
`handleRate` and `handleStop` touch: React state plus `chunkIndexRef`,
`textChunks` and `pausedAtRef`. -/
structure TsxSession where
  state : PlayState
  chunkIndex : Nat
  textChunks : List (List Char)
  rate : ℚ
  volume : ℚ
  muted : Bool
  emotion : EmotionTone
  elapsed : ℚ
  pausedAt : ℚ
deriving DecidableEq, Repr

/-- A `SpeechSynthesisUtterance` as configured by the tsx variant. -/
structure Utterance where
  text : List Char
  rate : ℚ
  pitch : ℚ
  volume : ℚ
deriving DecidableEq, Repr

/-- Model of `Array.prototype.flatten(" ")`. -/
def joinSpace : List (List Char) → List Char
  | [] => []
  | [x] => x
  | x :: xs => x ++ ' ' :: joinSpace xs

/-- Model of `handleRate(r)` (`AudioPlayer.tsx`, lines 236-251): store the new
rate; while `playing`, cancel the speech engine and speak the remaining
chunks — from the current one on, joined with spaces — as one utterance at
the new rate.  The second component is that utterance. -/
def handleRate (s : TsxSession) (r : ℚ) : TsxSession × Option Utterance :=
  let s1 := { s with rate := r }
  if s.state = .playing then
    (s1, some { text := joinSpace (s.textChunks.drop s.chunkIndex),
                rate := r * rate_mod s.emotion,
                pitch := pitchCfg s.emotion,
                volume := if s.muted then 0 else s.volume })
  else (s1, none)

/-- The `onend` handler installed by `handleRate`: `setState("ended")`. -/
def onRateUtterEnd (s : TsxSession) : TsxSession :=
  { s with state := .ended }

/-- Model of `handleStop` of `AudioPlayer.tsx` (lines 224-227): cancel
speech, go `idle`, stop the timer, reset elapsed/progress and the paused-at
restart point to 0.  (`chunkIndexRef` is not touched there.) -/
def tsxHandleStop (s : TsxSession) : TsxSession :=
  { s with state := .idle, elapsed := 0, pausedAt := 0 }

/-- Outcome of one remote synthesis attempt, as observed by a caller of
`synthesizeOnline`: success, or a thrown error for a non-ok response
(HTTP 429 and other failures distinguished by the edge function's status). -/
inductive RemoteOutcome
  | ok
  | rateLimited
  | backendUnavailable
  | synthesisFailed
deriving DecidableEq, Repr

/-- Outcome of one local synthesis attempt (`synthesizeOffline` resolves on
the utterance `end` event and rejects on its `error` event). -/
inductive LocalOutcome
  | ok
  | failed
deriving DecidableEq, Repr

/-- The two voice backends of the spec. -/
inductive Backend
  | remote
  | local
deriving DecidableEq, Repr

/-- Modelled from the spec: no UI variant under src wires `synthesizeOnline`
and `synthesizeOffline` together, so the backend-selection policy of spec
§4.2/§7 — prefer remote, fall back to local for the failing chunk, give up
only when local fails too — is taken from the specification text. -/
def selectBackend : RemoteOutcome → LocalOutcome → Option Backend
  | .ok, _ => some .remote
  | _, .ok => some .local
  | _, .failed => none

/-- Result of synthesizing and playing one chunk under the fallback policy. -/
structure FallbackOut where
  session : Session
  saves : List (Int × ℚ)
  started : Option Int
  backendUsed : Option Backend
  errorSurfaced : Bool
deriving DecidableEq, Repr

/-- Modelled from the spec: one chunk of the queue is synthesized with the
remote-to-local fallback policy; a successful playback (on either backend)
feeds the normal completion continuation, and only when both backends fail
does the session drop to an error `idle` with the error surfaced. -/
def playChunkWithFallback (s : Session) (n : Nat) (r : RemoteOutcome)
    (l : LocalOutcome) : FallbackOut :=
  match selectBackend r l with
  | some b =>
    let o := onSynthComplete s n
    { session := o.session, saves := o.saves, started := o.started,
      backendUsed := some b, errorSurfaced := false }
  | none =>
    let o := onSynthError s
    { session := o.session, saves := o.saves, started := o.started,
      backendUsed := none, errorSurfaced := true }

/-- A parsed request body of the `text-to-speech` edge function (`none`
models a missing or non-string `text` field). -/
structure TtsBody where
  text : List Char
  speed : ℚ
deriving DecidableEq, Repr

/-- Body of an edge-function response: binary audio or a JSON error object
with a message. -/
inductive RespBody
  | audio (bytes : List Nat)
  | jsonError (msg : String)
deriving DecidableEq, Repr

/-- An HTTP response of the edge function. -/
structure TtsResponse where
  status : Nat
  body : RespBody
deriving DecidableEq, Repr

/-- The payload the edge function forwards to the upstream synthesis API:
the truncated text and the clamped speed (the voice id only selects the
URL). -/
structure UpstreamCall where
  text : List Char
  speed : ℚ
deriving DecidableEq, Repr

/-- The server-side speed clamp `Math.max(0.7, Math.min(1.2, speed))`. -/
def clampSpeed (speed : ℚ) : ℚ :=
  max (7 / 10) (min (12 / 10) speed)

/-- Model of the `serve` handler of
`supabase/functions/text-to-speech/index.ts` (lines 13-88): missing key →
500; missing text → 400; otherwise the text is truncated to 5000 characters
and the speed clamped, and the upstream status is mapped — 2xx to the audio
bytes, 429 to a rate-limit error response, anything else to a generic
failure.  The second component is the upstream call that was made, if any. -/
def serveTts (hasKey : Bool) (body : Option TtsBody) (upstreamStatus : Nat)
    (upstreamBytes : List Nat) : TtsResponse × Option UpstreamCall :=
  if hasKey = false then
    ({ status := 500, body := .jsonError "API key not configured" }, none)
  else
    match body with
    | none => ({ status := 400, body := .jsonError "Text is required" }, none)
    | some b =>
      if b.text = [] then
        ({ status := 400, body := .jsonError "Text is required" }, none)
      else
        let call : UpstreamCall := { text := b.text.take 5000, speed := clampSpeed b.speed }
        if 200 ≤ upstreamStatus ∧ upstreamStatus ≤ 299 then
          ({ status := 200, body := .audio upstreamBytes }, some call)
        else if upstreamStatus = 429 then
          ({ status := 429,
             body := .jsonError "Rate limit exceeded. Please try again later." }, some call)
        else
          ({ status := 500, body := .jsonError "TTS generation failed" }, some call)

/-- Concrete two-chunk playing session used by the C5 witness. -/
def sessionW : Session :=
  { initialSession with state := .playing, playQueue := [0, 1] }

/-- Concrete playing session over the chunks ["hi", "yo"] used by the C7
witness. -/
def tsxSessionW : TsxSession :=
  { state := .playing, chunkIndex := 0, textChunks := ["hi".toList, "yo".toList],
    rate := 1, volume := 1, muted := false, emotion := .neutral,
    elapsed := 0, pausedAt := 0 }

example : chunkText "ab. cd".toList 200 = ["ab.".toList] := by decide

example : chunkText "aaaaaaa.bbbb.cccc.".toList 10 =
    ["aaaaaaa.".toList, "bbbb. cccc.".toList] := by decide

example : chunkText "".toList 200 = [[]] := by decide

example : matchSentences "a..b.c".toList = ["a..".toList, "b.".toList] := by decide

example : splitParas "a\n\n\nb\nc".toList = ["a".toList, "b\nc".toList] := by decide

example : smartSplitParagraphs "a\n\nb".toList = ["a".toList, "b".toList] := by decide

example : smartSplitParagraphs "one\ntwo\nthree".toList =
    ["one".toList, "two".toList, "three".toList] := by decide

example : smartSplitParagraphs "A. B. C. D.".toList =
    ["A. B. C.".toList, "D.".toList] := by decide

example : smartSplitParagraphs "   ".toList = [] := by decide

example : smartSplitParagraphs "".toList = [] := by decide

example :
    (handlePlayAll initialSession [2, 0, 4] 5).session.playQueue = [0, 2, 4] := by
  decide

example :
    (onSynthComplete ((handleStop initialSession).session) 5).session.state
      = PlayState.idle := by decide

example :
    (serveTts true (some { text := "hi".toList, speed := 2 }) 429 []).1.status = 429 := by
  decide

lemma isTerm_not_isWs {c : Char} (h : isTerm c = true) : isWs c = false := by
  have h2 : (c = '.' ∨ c = '!') ∨ c = '?' := by simpa [isTerm] using h
  rcases h2 with (rfl | rfl) | rfl <;> decide

lemma mem_dropWhile_of_neg {p : Char → Bool} {c : Char} :
    ∀ {l : List Char}, c ∈ l → p c = false → c ∈ l.dropWhile p := by
  intro l
  induction l with
  | nil => intro h _; cases h
  | cons a t ih =>
    intro hc hp
    rw [List.dropWhile_cons]
    split
    · rename_i ha
      rcases List.mem_cons.mp hc with rfl | hmem
      · rw [hp] at ha; cases ha
      · exact ih hmem hp
    · exact hc

lemma trimChars_ne_nil {c : Char} {l : List Char} (hc : c ∈ l) (hw : isWs c = false) :
    trimChars l ≠ [] := by
  have h1 : c ∈ l.dropWhile isWs := mem_dropWhile_of_neg hc hw
  have h2 : c ∈ (l.dropWhile isWs).reverse := List.mem_reverse.mpr h1
  have h3 : c ∈ (l.dropWhile isWs).reverse.dropWhile isWs := mem_dropWhile_of_neg h2 hw
  have h4 : c ∈ trimChars l := List.mem_reverse.mpr h3
  intro he
  rw [he] at h4
  cases h4

lemma trimChars_length_le (l : List Char) : (trimChars l).length ≤ l.length := by
  have h1 := (List.dropWhile_sublist (l := l) isWs).length_le
  have h2 := (List.dropWhile_sublist (l := (l.dropWhile isWs).reverse) isWs).length_le
  simp only [List.length_reverse] at h2
  simp only [trimChars, List.length_reverse]
  omega

lemma trimChars_eq_nil_of_ws {l : List Char} (h : ∀ c ∈ l, isWs c = true) :
    trimChars l = [] := by
  have h1 : l.dropWhile isWs = [] := List.dropWhile_eq_nil_iff.mpr h
  simp [trimChars, h1]

lemma trimChars_cons_ws {c : Char} (hc : isWs c = true) (l : List Char) :
    trimChars (c :: l) = trimChars l := by
  simp [trimChars, List.dropWhile_cons, hc]

lemma dropWhile_eq_self_of_head {p : Char → Bool} {l : List Char}
    (h : ∀ hne : l ≠ [], p (l.head hne) = false) : l.dropWhile p = l := by
  cases l with
  | nil => rfl
  | cons a t =>
    have ha := h (by simp)
    simp only [List.head_cons] at ha
    simp [List.dropWhile_cons, ha]

lemma trimChars_idem (l : List Char) : trimChars (trimChars l) = trimChars l := by
  by_cases hnil : trimChars l = []
  · rw [hnil]; rfl
  · have fact1 : (trimChars l).dropWhile isWs = trimChars l := by
      apply dropWhile_eq_self_of_head
      intro hne
      show isWs ((((l.dropWhile isWs).reverse.dropWhile isWs).reverse).head hne) = false
      have hBne : (l.dropWhile isWs).reverse.dropWhile isWs ≠ [] := by
        intro h0
        apply hne
        show ((l.dropWhile isWs).reverse.dropWhile isWs).reverse = []
        rw [h0]
        rfl
      rw [List.head_reverse]
      rw [(List.dropWhile_suffix isWs).getLast hBne]
      rw [List.getLast_reverse]
      exact List.head_dropWhile_not isWs l _
    have fact2 : (trimChars l).reverse.dropWhile isWs = (trimChars l).reverse := by
      have hrev : (trimChars l).reverse = (l.dropWhile isWs).reverse.dropWhile isWs := by
        simp [trimChars]
      rw [hrev, List.dropWhile_idempotent]
    calc trimChars (trimChars l)
        = (((trimChars l).dropWhile isWs).reverse.dropWhile isWs).reverse := rfl
      _ = ((trimChars l).reverse.dropWhile isWs).reverse := by rw [fact1]
      _ = ((trimChars l).reverse).reverse := by rw [fact2]
      _ = trimChars l := List.reverse_reverse _

lemma filter_dropWhile_isWs (l : List Char) :
    (l.dropWhile isWs).filter (fun c => !(isWs c)) = l.filter (fun c => !(isWs c)) := by
  induction l with
  | nil => rfl
  | cons a t ih =>
    rw [List.dropWhile_cons]
    split
    · rename_i ha
      rw [ih, List.filter_cons]
      simp [ha]
    · rfl

lemma nonWs_trim (l : List Char) : nonWsChars (trimChars l) = nonWsChars l := by
  simp only [nonWsChars, trimChars]
  rw [List.filter_reverse, filter_dropWhile_isWs, List.filter_reverse,
    List.reverse_reverse, filter_dropWhile_isWs]

lemma sentencesGo_has_term :
    ∀ (l body punct : List Char), (∀ c ∈ punct, isTerm c = true) →
      ∀ s ∈ sentencesGo l body punct, ∃ c ∈ s, isTerm c = true := by
  intro l
  induction l with
  | nil =>
    intro body punct hp s hs
    by_cases hpe : punct = []
    · simp [sentencesGo, hpe] at hs
    · simp only [sentencesGo, if_neg hpe, List.mem_singleton] at hs
      subst hs
      rcases List.exists_mem_of_ne_nil punct hpe with ⟨c, hc⟩
      exact ⟨c, List.mem_append_right _ hc, hp c hc⟩
  | cons c rest ih =>
    intro body punct hp s hs
    simp only [sentencesGo] at hs
    by_cases hc : isTerm c
    · rw [if_pos hc] at hs
      by_cases hb : body = []
      · rw [if_pos hb] at hs
        exact ih [] [] (by intro x hx; cases hx) s hs
      · rw [if_neg hb] at hs
        refine ih body (punct ++ [c]) ?_ s hs
        intro x hx
        rcases List.mem_append.mp hx with hx1 | hx2
        · exact hp x hx1
        · rw [List.mem_singleton.mp hx2]; exact hc
    · rw [if_neg hc] at hs
      by_cases hpe : punct = []
      · rw [if_pos hpe] at hs
        exact ih (body ++ [c]) [] (by intro x hx; cases hx) s hs
      · rw [if_neg hpe] at hs
        rcases List.mem_cons.mp hs with rfl | hs2
        · rcases List.exists_mem_of_ne_nil punct hpe with ⟨x, hx⟩
          exact ⟨x, List.mem_append_right _ hx, hp x hx⟩
        · exact ih [c] [] (by intro x hx; cases hx) s hs2

lemma sentencesGo_join_sublist :
    ∀ (l body punct : List Char),
      (sentencesGo l body punct).flatten.Sublist (body ++ punct ++ l) := by
  intro l
  induction l with
  | nil =>
    intro body punct
    by_cases hpe : punct = []
    · simp [sentencesGo, hpe]
    · simp only [sentencesGo, if_neg hpe, List.flatten_cons, List.flatten_nil,
        List.append_nil]
      exact List.Sublist.refl _
  | cons c rest ih =>
    intro body punct
    simp only [sentencesGo]
    by_cases hc : isTerm c
    · rw [if_pos hc]
      by_cases hb : body = []
      · rw [if_pos hb]
        subst hb
        have h1 := ih [] []
        simp only [List.nil_append] at h1 ⊢
        exact h1.trans ((List.sublist_cons_self c rest).trans
          (List.sublist_append_right punct _))
      · rw [if_neg hb]
        have h1 := ih body (punct ++ [c])
        have he : body ++ (punct ++ [c]) ++ rest = body ++ punct ++ (c :: rest) := by
          simp [List.append_assoc]
        rwa [he] at h1
    · rw [if_neg hc]
      by_cases hpe : punct = []
      · rw [if_pos hpe]
        subst hpe
        have h1 := ih (body ++ [c]) []
        have he : body ++ [c] ++ [] ++ rest = body ++ [] ++ (c :: rest) := by
          simp
        rwa [he] at h1
      · rw [if_neg hpe]
        rw [List.flatten_cons]
        have h1 := ih [c] []
        have h2 : (sentencesGo rest [c] []).flatten.Sublist (c :: rest) := by
          simpa using h1
        have h3 := h2.append_left (body ++ punct)
        have he : body ++ punct ++ c :: rest = (body ++ punct) ++ (c :: rest) := by
          simp
        rwa [← he] at h3

lemma sentencesGo_no_term :
    ∀ (l body : List Char), (∀ c ∈ l, isTerm c = false) →
      sentencesGo l body [] = [] := by
  intro l
  induction l with
  | nil => intro body _; simp [sentencesGo]
  | cons c rest ih =>
    intro body h
    have hc : isTerm c = false := h c (List.mem_cons_self c rest)
    simp only [sentencesGo, hc]
    simp only [Bool.false_eq_true, if_false, if_pos rfl]
    exact ih (body ++ [c]) fun x hx => h x (List.mem_cons_of_mem c hx)

lemma nonWs_nil : nonWsChars [] = [] := rfl

lemma nonWs_append (l1 l2 : List Char) :
    nonWsChars (l1 ++ l2) = nonWsChars l1 ++ nonWsChars l2 :=
  List.filter_append _ _

lemma nonWs_space_cons (s : List Char) : nonWsChars (' ' :: s) = nonWsChars s := by
  have h : (!(isWs ' ')) = false := by decide
  simp only [nonWsChars, List.filter_cons, h]
  simp

lemma chunkAux_flatten_filter (maxLen : Nat) :
    ∀ (sents : List (List Char)) (current : List Char) (chunks : List (List Char)),
      nonWsChars (chunkAux maxLen sents current chunks).flatten
        = nonWsChars chunks.flatten ++ nonWsChars current ++ nonWsChars sents.flatten := by
  intro sents
  induction sents with
  | nil =>
    intro current chunks
    simp only [chunkAux, List.flatten_nil]
    by_cases h : trimChars current = []
    · rw [if_pos h]
      have h2 : nonWsChars current = [] := by
        rw [← nonWs_trim current, h]
        rfl
      simp [h2, nonWs_nil]
    · rw [if_neg h]
      calc nonWsChars (chunks ++ [trimChars current]).flatten
          = nonWsChars (chunks.flatten ++ trimChars current) := by
            simp [List.flatten_append]
        _ = nonWsChars chunks.flatten ++ nonWsChars (trimChars current) :=
            nonWs_append _ _
        _ = nonWsChars chunks.flatten ++ nonWsChars current := by rw [nonWs_trim]
        _ = nonWsChars chunks.flatten ++ nonWsChars current ++ nonWsChars [] := by
            simp [nonWs_nil]
  | cons s rest ih =>
    intro current chunks
    simp only [chunkAux]
    by_cases hov : maxLen < (current ++ s).length
    · rw [if_pos hov]
      by_cases hcur : current = []
      · rw [if_pos hcur]
        subst hcur
        rw [ih s chunks]
        simp [List.flatten_cons, nonWs_append, nonWs_nil, List.append_assoc]
      · rw [if_neg hcur]
        rw [ih s (chunks ++ [trimChars current])]
        simp [List.flatten_append, List.flatten_cons, nonWs_append, nonWs_trim,
          List.append_assoc]
    · rw [if_neg hov]
      rw [ih (current ++ ' ' :: s) chunks]
      simp [nonWs_append, nonWs_space_cons, List.flatten_cons, List.append_assoc]

lemma chunkAux_ne_nil (maxLen : Nat) :
    ∀ (sents : List (List Char)) (current : List Char) (chunks : List (List Char)),
      (∀ s ∈ sents, ∃ c ∈ s, isTerm c = true) →
      (sents ≠ [] ∨ (∃ c ∈ current, isTerm c = true) ∨ chunks ≠ []) →
      chunkAux maxLen sents current chunks ≠ [] := by
  intro sents
  induction sents with
  | nil =>
    intro current chunks _ hd
    rcases hd with h | h | h
    · exact absurd rfl h
    · simp only [chunkAux]
      rcases h with ⟨c, hc, hterm⟩
      rw [if_neg (trimChars_ne_nil hc (isTerm_not_isWs hterm))]
      simp
    · simp only [chunkAux]
      split
      · exact h
      · simp
  | cons s rest ih =>
    intro current chunks hterm _
    have hs := hterm s (List.mem_cons_self s rest)
    have hrest : ∀ x ∈ rest, ∃ c ∈ x, isTerm c = true :=
      fun x hx => hterm x (List.mem_cons_of_mem s hx)
    simp only [chunkAux]
    by_cases hov : maxLen < (current ++ s).length
    · rw [if_pos hov]
      by_cases hcur : current = []
      · rw [if_pos hcur]
        exact ih s chunks hrest (Or.inr (Or.inl hs))
      · rw [if_neg hcur]
        exact ih s _ hrest (Or.inr (Or.inl hs))
    · rw [if_neg hov]
      refine ih (current ++ ' ' :: s) chunks hrest (Or.inr (Or.inl ?_))
      rcases hs with ⟨c, hc, ht⟩
      exact ⟨c, by simp [hc], ht⟩

lemma chunkAux_mem_spec (maxLen : Nat) (allS : List (List Char)) :
    ∀ (sents : List (List Char)) (current : List Char) (chunks : List (List Char)),
      (∀ s ∈ sents, s ∈ allS) →
      (current = [] ∨ current ∈ allS ∨ current.length ≤ maxLen + 1) →
      (∀ c ∈ chunks, c.length ≤ maxLen + 1 ∨ ∃ s ∈ allS, c = trimChars s) →
      ∀ c ∈ chunkAux maxLen sents current chunks,
        c.length ≤ maxLen + 1 ∨ ∃ s ∈ allS, c = trimChars s := by
  intro sents
  induction sents with
  | nil =>
    intro current chunks _ hcur hch c hc
    simp only [chunkAux] at hc
    split at hc
    · exact hch c hc
    · rcases List.mem_append.mp hc with h | h
      · exact hch c h
      · rw [List.mem_singleton.mp h]
        rcases hcur with rfl | h2 | h2
        · rename_i hne
          exact absurd rfl hne
        · exact Or.inr ⟨current, h2, rfl⟩
        · exact Or.inl (le_trans (trimChars_length_le current) h2)
  | cons s rest ih =>
    intro current chunks hsub hcur hch c hc
    have hsubr : ∀ x ∈ rest, x ∈ allS := fun x hx => hsub x (List.mem_cons_of_mem s hx)
    have hsS : s ∈ allS := hsub s (List.mem_cons_self s rest)
    simp only [chunkAux] at hc
    by_cases hov : maxLen < (current ++ s).length
    · rw [if_pos hov] at hc
      by_cases hce : current = []
      · rw [if_pos hce] at hc
        exact ih s chunks hsubr (Or.inr (Or.inl hsS)) hch c hc
      · rw [if_neg hce] at hc
        refine ih s _ hsubr (Or.inr (Or.inl hsS)) ?_ c hc
        intro x hx
        rcases List.mem_append.mp hx with h | h
        · exact hch x h
        · rw [List.mem_singleton.mp h]
          rcases hcur with rfl | h2 | h2
          · exact absurd rfl hce
          · exact Or.inr ⟨current, h2, rfl⟩
          · exact Or.inl (le_trans (trimChars_length_le current) h2)
    · rw [if_neg hov] at hc
      refine ih (current ++ ' ' :: s) chunks hsubr (Or.inr (Or.inr ?_)) hch c hc
      have hle : (current ++ s).length ≤ maxLen := Nat.not_lt.mp hov
      simp only [List.length_append, List.length_cons] at hle ⊢
      omega

lemma chunkAux_mem_ne_nil (maxLen : Nat) :
    ∀ (sents : List (List Char)) (current : List Char) (chunks : List (List Char)),
      (∀ s ∈ sents, ∃ c ∈ s, isTerm c = true) →
      (current = [] ∨ ∃ c ∈ current, isTerm c = true) →
      (∀ c ∈ chunks, c ≠ []) →
      ∀ c ∈ chunkAux maxLen sents current chunks, c ≠ [] := by
  intro sents
  induction sents with
  | nil =>
    intro current chunks _ _ hch c hc
    simp only [chunkAux] at hc
    split at hc
    · exact hch c hc
    · rcases List.mem_append.mp hc with h | h
      · exact hch c h
      · rename_i hne
        rw [List.mem_singleton.mp h]
        exact hne
  | cons s rest ih =>
    intro current chunks hterm hcur hch c hc
    have hs := hterm s (List.mem_cons_self s rest)
    have hrest : ∀ x ∈ rest, ∃ ch ∈ x, isTerm ch = true :=
      fun x hx => hterm x (List.mem_cons_of_mem s hx)
    simp only [chunkAux] at hc
    by_cases hov : maxLen < (current ++ s).length
    · rw [if_pos hov] at hc
      by_cases hce : current = []
      · rw [if_pos hce] at hc
        exact ih s chunks hrest (Or.inr hs) hch c hc
      · rw [if_neg hce] at hc
        refine ih s _ hrest (Or.inr hs) ?_ c hc
        intro x hx
        rcases List.mem_append.mp hx with h | h
        · exact hch x h
        · rw [List.mem_singleton.mp h]
          rcases hcur with rfl | ⟨ch, hchm, hcht⟩
          · exact absurd rfl hce
          · exact trimChars_ne_nil hchm (isTerm_not_isWs hcht)
    · rw [if_neg hov] at hc
      refine ih (current ++ ' ' :: s) chunks hrest (Or.inr ?_) hch c hc
      rcases hs with ⟨ch, hchm, hcht⟩
      exact ⟨ch, by simp [hchm], hcht⟩

lemma chunkAux_single (maxLen : Nat) (t : List Char) :
    chunkAux maxLen [t] [] [] = if trimChars t = [] then [] else [trimChars t] := by
  simp [chunkAux, trimChars_cons_ws (show isWs ' ' = true by decide) t]

lemma onSynthComplete_of_abort (s : Session) (k : Nat) (h : s.abort = true) :
    onSynthComplete s k = { session := s, saves := [], started := none } := by
  simp [onSynthComplete, h]

lemma playParagraph_playQueue (s : Session) (i : Int) (n : Nat) :
    (playParagraph s i n).session.playQueue = s.playQueue := by
  unfold playParagraph; split <;> rfl

lemma playParagraph_queueIndex (s : Session) (i : Int) (n : Nat) :
    (playParagraph s i n).session.queueIndex = s.queueIndex := by
  unfold playParagraph; split <;> rfl

lemma serveTts_call (b : TtsBody) (us : Nat) (bytes : List Nat) (ht : b.text ≠ []) :
    (serveTts true (some b) us bytes).2
      = some { text := b.text.take 5000, speed := clampSpeed b.speed } := by
  unfold serveTts
  simp [ht]
  split
  · rfl
  · split <;> rfl

lemma crnl_ws (b : Bool) (n : Nat) : ∀ c ∈ crnl b n, isWs c = true := by
  intro c hc
  simp only [crnl] at hc
  rcases List.mem_append.mp hc with h | h
  · split at h
    · rw [List.mem_singleton.mp h]
      decide
    · cases h
  · rw [List.eq_of_mem_replicate h]
    decide

lemma splitParasGo_ws :
    ∀ (l : List Char) (acc : List (List Char)) (cur : List Char) (sawCr : Bool) (nl : Nat),
      (∀ c ∈ l, isWs c = true) →
      (∀ p ∈ acc, ∀ c ∈ p, isWs c = true) →
      (∀ c ∈ cur, isWs c = true) →
      ∀ p ∈ splitParasGo l acc cur sawCr nl, ∀ c ∈ p, isWs c = true := by
  intro l
  induction l with
  | nil =>
    intro acc cur sawCr nl _ hacc hcur p hp c hc
    simp only [splitParasGo] at hp
    split at hp
    · rcases List.mem_append.mp hp with h | h
      · exact hacc p h c hc
      · rcases List.mem_cons.mp h with rfl | h2
        · exact hcur c hc
        · rw [List.mem_singleton.mp h2] at hc
          cases hc
    · rcases List.mem_append.mp hp with h | h
      · exact hacc p h c hc
      · rw [List.mem_singleton.mp h] at hc
        rcases List.mem_append.mp hc with h2 | h2
        · exact hcur c h2
        · exact crnl_ws _ _ c h2
  | cons a rest ih =>
    intro acc cur sawCr nl hl hacc hcur p hp c hc
    have ha : isWs a = true := hl a (List.mem_cons_self a rest)
    have hrest : ∀ x ∈ rest, isWs x = true :=
      fun x hx => hl x (List.mem_cons_of_mem a hx)
    have haccCur : ∀ q ∈ acc ++ [cur], ∀ x ∈ q, isWs x = true := by
      intro q hq x hx
      rcases List.mem_append.mp hq with hh | hh
      · exact hacc q hh x hx
      · rw [List.mem_singleton.mp hh] at hx
        exact hcur x hx
    simp only [splitParasGo] at hp
    by_cases h1 : a = '\n'
    · rw [if_pos h1] at hp
      exact ih acc cur sawCr (nl + 1) hrest hacc hcur p hp c hc
    · rw [if_neg h1] at hp
      by_cases h2 : a = '\r'
      · rw [if_pos h2] at hp
        split at hp
        · exact ih _ [] true 0 hrest haccCur (by intro x hx; cases hx) p hp c hc
        · refine ih acc (cur ++ crnl sawCr nl) true 0 hrest hacc ?_ p hp c hc
          intro x hx
          rcases List.mem_append.mp hx with hh | hh
          · exact hcur x hh
          · exact crnl_ws _ _ x hh
      · rw [if_neg h2] at hp
        split at hp
        · refine ih _ [a] false 0 hrest haccCur ?_ p hp c hc
          intro x hx
          rw [List.mem_singleton.mp hx]
          exact ha
        · refine ih acc (cur ++ crnl sawCr nl ++ [a]) false 0 hrest hacc ?_ p hp c hc
          intro x hx
          rcases List.mem_append.mp hx with hh | hh
          · rcases List.mem_append.mp hh with hh2 | hh2
            · exact hcur x hh2
            · exact crnl_ws _ _ x hh2
          · rw [List.mem_singleton.mp hh]
            exact ha

lemma splitNL_mem : ∀ (l : List Char), ∀ p ∈ splitNL l, ∀ c ∈ p, c ∈ l := by
  intro l
  induction l with
  | nil =>
    intro p hp c hc
    simp only [splitNL, List.mem_singleton] at hp
    rw [hp] at hc
    cases hc
  | cons a rest ih =>
    intro p hp c hc
    simp only [splitNL] at hp
    by_cases h1 : a = '\n'
    · rw [if_pos h1] at hp
      rcases List.mem_cons.mp hp with rfl | h2
      · cases hc
      · exact List.mem_cons_of_mem a (ih p h2 c hc)
    · rw [if_neg h1] at hp
      cases hsp : splitNL rest with
      | nil =>
        rw [hsp] at hp
        rw [List.mem_singleton.mp hp] at hc
        rw [List.mem_singleton.mp hc]
        exact List.mem_cons_self a rest
      | cons q qs =>
        rw [hsp] at hp
        rcases List.mem_cons.mp hp with rfl | h2
        · rcases List.mem_cons.mp hc with rfl | h3
          · exact List.mem_cons_self c rest
          · refine List.mem_cons_of_mem a (ih q ?_ c h3)
            rw [hsp]
            exact List.mem_cons_self q qs
        · refine List.mem_cons_of_mem a (ih p ?_ c hc)
          rw [hsp]
          exact List.mem_cons_of_mem q h2

lemma group3Aux_mem_trim :
    ∀ (sents : List (List Char)) (i : Nat) (current : List Char),
      ∀ g ∈ group3Aux i sents current, ∃ x, g = trimChars x := by
  intro sents
  induction sents with
  | nil =>
    intro i current g hg
    simp only [group3Aux] at hg
    cases hg
  | cons s rest ih =>
    intro i current g hg
    simp only [group3Aux] at hg
    split at hg
    · rcases List.mem_cons.mp hg with rfl | h2
      · exact ⟨current ++ s, rfl⟩
      · exact ih (i + 1) [] g h2
    · exact ih (i + 1) (current ++ s) g hg

lemma group3Aux_ne_nil :
    ∀ (sents : List (List Char)) (i : Nat) (current : List Char),
      sents ≠ [] → group3Aux i sents current ≠ [] := by
  intro sents
  induction sents with
  | nil => intro i current h; exact absurd rfl h
  | cons s rest ih =>
    intro i current _
    simp only [group3Aux]
    split
    · simp
    · rename_i hcond
      exact ih (i + 1) (current ++ s) (fun h => hcond (Or.inr h))

lemma group3Aux_mem_ne_nil :
    ∀ (sents : List (List Char)) (i : Nat) (current : List Char),
      (∀ s ∈ sents, ∃ c ∈ s, isWs c = false) →
      ∀ g ∈ group3Aux i sents current, g ≠ [] := by
  intro sents
  induction sents with
  | nil =>
    intro i current _ g hg
    simp only [group3Aux] at hg
    cases hg
  | cons s rest ih =>
    intro i current hws g hg
    have hs := hws s (List.mem_cons_self s rest)
    have hrest : ∀ x ∈ rest, ∃ c ∈ x, isWs c = false :=
      fun x hx => hws x (List.mem_cons_of_mem s hx)
    simp only [group3Aux] at hg
    split at hg
    · rcases List.mem_cons.mp hg with rfl | h2
      · rcases hs with ⟨c, hc, hcw⟩
        exact trimChars_ne_nil (by simp [hc] : c ∈ current ++ s) hcw
      · exact ih (i + 1) [] hrest g h2
    · exact ih (i + 1) (current ++ s) hrest g hg

lemma filter_ne_nil_eq_self {L : List (List Char)} (h : ∀ x ∈ L, x ≠ []) :
    L.filter (fun p => p ≠ []) = L := by
  rw [List.filter_eq_self]
  intro a ha
  simpa using h a ha

lemma matchSentences_ws {t : List Char} (h : ∀ c ∈ t, isWs c = true) :
    matchSentences t = [] := by
  apply sentencesGo_no_term
  intro c hc
  cases hcT : isTerm c
  · rfl
  · have h1 := isTerm_not_isWs hcT
    rw [h c hc] at h1
    cases h1

lemma smartSplit_mem (t : List Char) :
    ∀ p ∈ smartSplitParagraphs t, p ≠ [] ∧ trimChars p = p := by
  intro p hp
  simp only [smartSplitParagraphs] at hp
  have idemOf : ∀ (L : List (List Char)),
      p ∈ (L.map trimChars).filter (fun q => q ≠ []) → p ≠ [] ∧ trimChars p = p := by
    intro L hmem
    constructor
    · have h1 := List.of_mem_filter hmem
      simpa using h1
    · have h2 := List.mem_of_mem_filter hmem
      rcases List.mem_map.mp h2 with ⟨x, _, rfl⟩
      exact trimChars_idem x
  split at hp
  · exact idemOf (splitParas t) hp
  · split at hp
    · exact idemOf (splitNL t) hp
    · constructor
      · have h1 := List.of_mem_filter hp
        simpa using h1
      · have h2 := List.mem_of_mem_filter hp
        rcases group3Aux_mem_trim (sentencesOf t) 0 [] p h2 with ⟨x, rfl⟩
        exact trimChars_idem x

lemma smartSplit_ne_nil {t : List Char} (h : ∃ c ∈ t, isWs c = false) :
    smartSplitParagraphs t ≠ [] := by
  rcases h with ⟨c, hct, hcw⟩
  simp only [smartSplitParagraphs]
  split
  · rename_i h1
    intro he
    rw [he] at h1
    simp at h1
  · split
    · rename_i h2
      intro he
      rw [he] at h2
      simp at h2
    · by_cases hm : matchSentences t = []
      · have hsent : sentencesOf t = [t] := by simp [sentencesOf, hm]
        rw [hsent]
        have htr : trimChars t ≠ [] := trimChars_ne_nil hct hcw
        simp [htr, group3Aux]
      · have hsent : sentencesOf t = matchSentences t := by simp [sentencesOf, hm]
        have hterm : ∀ s ∈ sentencesOf t, ∃ ch ∈ s, isTerm ch = true := by
          intro s hs
          rw [hsent] at hs
          exact sentencesGo_has_term t [] [] (by intro x hx; cases hx) s hs
        have hws : ∀ s ∈ sentencesOf t, ∃ ch ∈ s, isWs ch = false := by
          intro s hs
          rcases hterm s hs with ⟨ch, hchm, hcht⟩
          exact ⟨ch, hchm, isTerm_not_isWs hcht⟩
        have hgne : group3Aux 0 (sentencesOf t) [] ≠ [] := by
          apply group3Aux_ne_nil _ 0 []
          rw [hsent]
          exact hm
        rw [filter_ne_nil_eq_self (group3Aux_mem_ne_nil _ 0 [] hws)]
        exact hgne

lemma smartSplit_ws {t : List Char} (h : ∀ c ∈ t, isWs c = true) :
    smartSplitParagraphs t = [] := by
  have hd : splitIntoParagraphs t = [] := by
    unfold splitIntoParagraphs
    rw [List.filter_eq_nil_iff]
    intro a ha
    rcases List.mem_map.mp ha with ⟨x, hx, rfl⟩
    have hxw : ∀ c ∈ x, isWs c = true :=
      splitParasGo_ws t [] [] false 0 h (by intro q hq; cases hq)
        (by intro c hc; cases hc) x hx
    simp [trimChars_eq_nil_of_ws hxw]
  have hl : ((splitNL t).map trimChars).filter (fun p => p ≠ []) = [] := by
    rw [List.filter_eq_nil_iff]
    intro a ha
    rcases List.mem_map.mp ha with ⟨x, hx, rfl⟩
    have hxw : ∀ c ∈ x, isWs c = true := fun c hc => h c (splitNL_mem t x hx c hc)
    simp [trimChars_eq_nil_of_ws hxw]
  have hm : matchSentences t = [] := matchSentences_ws h
  have hsent : sentencesOf t = [t] := by simp [sentencesOf, hm]
  simp only [smartSplitParagraphs, hd, hl]
  rw [hsent]
  have htr : trimChars t = [] := trimChars_eq_nil_of_ws h
  simp [htr, group3Aux]

/-- C1: a synthesis completion that arrives after its cancellation token was
invalidated (here: `playAll`, then an immediate `stop`, then the delayed
completion of the superseded synthesis) is discarded unconditionally: it
issues no save, starts nothing, advances no queue position, changes no field
of the session, and the session stays `idle`; more generally any session
whose abort flag is set discards completions this way. -/
theorem staleCompletion_noop (s : Session) (sel : List Nat) (n k j : Nat) :
    onSynthComplete ((handleStop (handlePlayAll s sel n).session).session) k
        = { session := (handleStop (handlePlayAll s sel n).session).session,
            saves := [], started := none } ∧
    ((handleStop (handlePlayAll s sel n).session).session).state = .idle ∧
    (∀ s1 : Session, onSynthComplete { s1 with abort := true } j
        = { session := { s1 with abort := true }, saves := [], started := none }) := by
  refine ⟨onSynthComplete_of_abort _ _ rfl, rfl, fun s1 => onSynthComplete_of_abort _ _ rfl⟩

/-- C2: `handlePlayAll` resets the queue position to 0 and builds the queue
from a non-empty selection as that selection sorted strictly increasingly —
a permutation of the selection, so nothing is duplicated or skipped — and
from an empty selection as the full index sequence `0..n-1`. -/
theorem handlePlayAll_selection_sorted (s : Session) (sel : List Nat) (n : Nat)
    (hnd : sel.Nodup) :
    (handlePlayAll s sel n).session.queueIndex = 0 ∧
    (handlePlayAll s sel n).session.playQueue = buildQueue sel n ∧
    (sel ≠ [] → (handlePlayAll s sel n).session.playQueue.Sorted (· < ·) ∧
      (handlePlayAll s sel n).session.playQueue.Perm sel) ∧
    (sel = [] → (handlePlayAll s sel n).session.playQueue = List.range n) := by
  have hq : (handlePlayAll s sel n).session.playQueue = buildQueue sel n := by
    unfold handlePlayAll
    cases hb : buildQueue sel n with
    | nil => simp [hb]
    | cons q0 qs => simp [hb, playParagraph_playQueue]
  have hz : (handlePlayAll s sel n).session.queueIndex = 0 := by
    unfold handlePlayAll
    cases hb : buildQueue sel n with
    | nil => simp [hb]
    | cons q0 qs => simp [hb, playParagraph_queueIndex]
  refine ⟨hz, hq, fun hne => ?_, fun he => ?_⟩
  · have hlen : 0 < sel.length := List.length_pos.mpr hne
    have hbq : buildQueue sel n = sel.insertionSort (· ≤ ·) := by
      simp [buildQueue, hlen]
    rw [hq, hbq]
    refine ⟨?_, List.perm_insertionSort _ sel⟩
    exact (List.sorted_insertionSort _ sel).lt_of_le
      (((List.perm_insertionSort _ sel).nodup_iff).mpr hnd)
  · subst he
    rw [hq]
    simp [buildQueue]

/-- C2 witness: the selection {2,0,4} over five chunks plays 0,2,4. -/
theorem handlePlayAll_selection_sorted_witness :
    (handlePlayAll initialSession [2, 0, 4] 5).session.queueIndex = 0 ∧
    (handlePlayAll initialSession [2, 0, 4] 5).session.playQueue = buildQueue [2, 0, 4] 5 ∧
    ([2, 0, 4] ≠ ([] : List Nat) →
      (handlePlayAll initialSession [2, 0, 4] 5).session.playQueue.Sorted (· < ·) ∧
      (handlePlayAll initialSession [2, 0, 4] 5).session.playQueue.Perm [2, 0, 4]) ∧
    ([2, 0, 4] = ([] : List Nat) →
      (handlePlayAll initialSession [2, 0, 4] 5).session.playQueue = List.range 5) :=
  handlePlayAll_selection_sorted initialSession [2, 0, 4] 5 (by decide)

/-- C6 counterexample: `stop()` is not a no-op in the `idle` state.  After a
persisted resume point {chunkIndex 2} has been loaded into a fresh (idle)
session, `handleStop` changes the session: it clears the seeded resume index
(and sets the abort flag). -/
theorem handleStop_not_noop_counterexample :
    (applyLoadedState initialSession (some { chunkIndex := 2, speed := 1 }) 5).state
        = PlayState.idle ∧
    (handleStop (applyLoadedState initialSession
          (some { chunkIndex := 2, speed := 1 }) 5)).session
        ≠ applyLoadedState initialSession (some { chunkIndex := 2, speed := 1 }) 5 := by
  decide

/-- C6 amended: `stop()` is safe from every state and always yields `idle`
with `currentParagraph` cleared to -1 (none) and the abort flag set, issuing
no save and starting no synthesis; it is idempotent, though from `idle` it is
not a strict no-op (it clears a load-seeded resume index).  In the
`AudioPlayer.tsx` variant `handleStop` additionally resets the elapsed time
and the paused-at restart point to 0. -/
theorem handleStop_always_idle (s : Session) (s2 : TsxSession) :
    (handleStop s).session.state = .idle ∧
    (handleStop s).session.currentParagraph = -1 ∧
    (handleStop s).session.abort = true ∧
    (handleStop (handleStop s).session).session = (handleStop s).session ∧
    (handleStop s).saves = [] ∧
    (handleStop s).started = none ∧
    (tsxHandleStop s2).state = .idle ∧
    (tsxHandleStop s2).elapsed = 0 ∧
    (tsxHandleStop s2).pausedAt = 0 :=
  ⟨rfl, rfl, rfl, rfl, rfl, rfl, rfl, rfl, rfl⟩

/-- C9: `playParagraph` persists exactly one checkpoint `{chunkIndex, rate}`
at the moment the chunk starts playing, while pause/resume/stop persist
nothing; the load effect at player open seeds the rate and the (in-range)
chunk index without changing the state — the loaded position is displayed,
never auto-played. -/
theorem checkpoint_and_load (s : Session) (idx : Int) (n : Nat) (p : PersistedState)
    (h1 : 0 ≤ idx) (h2 : idx < (n : Int))
    (hp1 : 0 ≤ p.chunkIndex) (hp2 : p.chunkIndex < (n : Int)) :
    (playParagraph s idx n).saves = [(idx, s.rate)] ∧
    (playParagraph s idx n).session.state = .playing ∧
    (playParagraph s idx n).started = some idx ∧
    (handlePause s).saves = [] ∧
    (handleResume s).saves = [] ∧
    (handleStop s).saves = [] ∧
    (applyLoadedState s (some p) n).rate = p.speed ∧
    (applyLoadedState s (some p) n).state = s.state ∧
    (applyLoadedState s (some p) n).currentParagraph = p.chunkIndex := by
  have hcond : ¬ (idx < 0 ∨ (n : Int) ≤ idx) := by omega
  refine ⟨?_, ?_, ?_, rfl, rfl, rfl, ?_, ?_, ?_⟩ <;>
    simp [playParagraph, applyLoadedState, hcond, hp1, hp2]

/-- C9 witness: checkpoint and load behaviour at chunk 2 of a five-chunk
session. -/
theorem checkpoint_and_load_witness :
    (playParagraph initialSession 2 5).saves = [(2, 1)] ∧
    (playParagraph initialSession 2 5).session.state = .playing ∧
    (playParagraph initialSession 2 5).started = some 2 ∧
    (handlePause initialSession).saves = [] ∧
    (handleResume initialSession).saves = [] ∧
    (handleStop initialSession).saves = [] ∧
    (applyLoadedState initialSession (some { chunkIndex := 2, speed := 1 }) 5).rate = 1 ∧
    (applyLoadedState initialSession (some { chunkIndex := 2, speed := 1 }) 5).state
        = initialSession.state ∧
    (applyLoadedState initialSession (some { chunkIndex := 2, speed := 1 }) 5).currentParagraph
        = 2 :=
  checkpoint_and_load initialSession 2 5 { chunkIndex := 2, speed := 1 }
    (by decide) (by decide) (by decide) (by decide)

/-- C5: under the (spec-modelled) fallback policy, a rate-limited remote
attempt for the current chunk is spoken by the local backend with no error
surfaced, and the queue advances normally: the queue position moves to the
next entry and its synthesis starts; only when the local backend fails too
does the session drop to `idle` with the error surfaced. -/
theorem remote429_local_fallback (s : Session) (n : Nat)
    (hq : s.queueIndex + 1 < s.playQueue.length) (ha : s.abort = false)
    (hn : s.playQueue.getD (s.queueIndex + 1) 0 < n) :
    (playChunkWithFallback s n .rateLimited .ok).backendUsed = some .local ∧
    (playChunkWithFallback s n .rateLimited .ok).errorSurfaced = false ∧
    (playChunkWithFallback s n .rateLimited .ok).session.queueIndex = s.queueIndex + 1 ∧
    (playChunkWithFallback s n .rateLimited .ok).session.state = .playing ∧
    (playChunkWithFallback s n .rateLimited .ok).started
        = some ((s.playQueue.getD (s.queueIndex + 1) 0 : Nat) : Int) ∧
    (playChunkWithFallback s n .rateLimited .failed).session.state = .idle ∧
    (playChunkWithFallback s n .rateLimited .failed).errorSurfaced = true := by
  have hg : s.playQueue[s.queueIndex + 1] < n := by
    rw [List.getD_eq_getElem _ _ hq] at hn
    exact hn
  have hno : ¬ (((s.playQueue[s.queueIndex + 1] : Nat) : Int) < 0
      ∨ (n : Int) ≤ ((s.playQueue[s.queueIndex + 1] : Nat) : Int)) := by
    omega
  refine ⟨?_, ?_, ?_, ?_, ?_, ?_, ?_⟩ <;>
    simp [playChunkWithFallback, selectBackend, onSynthComplete, onSynthError,
      playParagraph, ha, hq, hno] <;>
    (try split) <;>
    first
      | rfl
      | (rename_i hcond
         exact absurd hcond (by omega))

/-- C5 witness: a two-chunk queue at position 0, remote 429 then local
success. -/
theorem remote429_local_fallback_witness :
    (playChunkWithFallback sessionW 2 .rateLimited .ok).backendUsed = some .local ∧
    (playChunkWithFallback sessionW 2 .rateLimited .ok).errorSurfaced = false ∧
    (playChunkWithFallback sessionW 2 .rateLimited .ok).session.queueIndex
        = sessionW.queueIndex + 1 ∧
    (playChunkWithFallback sessionW 2 .rateLimited .ok).session.state = .playing ∧
    (playChunkWithFallback sessionW 2 .rateLimited .ok).started
        = some ((sessionW.playQueue.getD (sessionW.queueIndex + 1) 0 : Nat) : Int) ∧
    (playChunkWithFallback sessionW 2 .rateLimited .failed).session.state = .idle ∧
    (playChunkWithFallback sessionW 2 .rateLimited .failed).errorSurfaced = true :=
  remote429_local_fallback sessionW 2 (by decide) (by decide) (by decide)

/-- C7: `setRate(r)` while `playing` immediately re-speaks from the current
chunk: the utterance it starts carries the new rate (times the emotion
modifier) and its text is the remaining chunks joined in order, beginning
with the text of the currently-sounding chunk; the stored rate becomes `r`,
and the utterance's end event moves the session to `ended` — i.e. exactly
when that remaining queue has been spoken. -/
theorem handleRate_current_chunk (s : TsxSession) (r : ℚ)
    (h : s.state = .playing) (h2 : s.chunkIndex < s.textChunks.length) :
    (handleRate s r).2 = some { text := joinSpace (s.textChunks.drop s.chunkIndex),
                                rate := r * rate_mod s.emotion,
                                pitch := pitchCfg s.emotion,
                                volume := if s.muted then 0 else s.volume } ∧
    (∃ rest, joinSpace (s.textChunks.drop s.chunkIndex)
        = s.textChunks.getD s.chunkIndex [] ++ rest) ∧
    (handleRate s r).1.rate = r ∧
    (onRateUtterEnd (handleRate s r).1).state = .ended := by
  have hdrop : s.textChunks.drop s.chunkIndex
      = s.textChunks.getD s.chunkIndex [] :: s.textChunks.drop (s.chunkIndex + 1) := by
    rw [List.getD_eq_getElem _ _ h2]
    exact List.drop_eq_getElem_cons h2
  refine ⟨by simp [handleRate, h], ?_, by simp [handleRate, h], by simp [handleRate, onRateUtterEnd, h]⟩
  rw [hdrop]
  cases hrest : s.textChunks.drop (s.chunkIndex + 1) with
  | nil => exact ⟨[], by simp [joinSpace]⟩
  | cons y ys => exact ⟨' ' :: joinSpace (y :: ys), by simp [joinSpace]⟩

/-- C7 witness: changing the rate to 2 while chunk 0 of ["hi", "yo"] is
playing. -/
theorem handleRate_current_chunk_witness :
    (handleRate tsxSessionW 2).2
        = some { text := joinSpace (tsxSessionW.textChunks.drop tsxSessionW.chunkIndex),
                 rate := 2 * rate_mod tsxSessionW.emotion,
                 pitch := pitchCfg tsxSessionW.emotion,
                 volume := if tsxSessionW.muted then 0 else tsxSessionW.volume } ∧
    (∃ rest, joinSpace (tsxSessionW.textChunks.drop tsxSessionW.chunkIndex)
        = tsxSessionW.textChunks.getD tsxSessionW.chunkIndex [] ++ rest) ∧
    (handleRate tsxSessionW 2).1.rate = 2 ∧
    (onRateUtterEnd (handleRate tsxSessionW 2).1).state = .ended :=
  handleRate_current_chunk tsxSessionW 2 (by decide) (by decide)

/-- C8: for a configured key and a non-empty text, the edge function calls
upstream with the text truncated to at most 5000 characters and the speed
clamped into [0.7, 1.2] (whatever the client sent); a 2xx upstream response
becomes binary audio, an upstream 429 becomes a status-429 JSON rate-limit
error, and every other upstream status becomes the generic status-500
synthesis-failure error. -/
theorem serveTts_contract (b : TtsBody) (us : Nat) (bytes : List Nat) (ht : b.text ≠ []) :
    (∀ call ∈ (serveTts true (some b) us bytes).2,
        call.text = b.text.take 5000 ∧ call.text.length ≤ 5000 ∧
        call.speed = clampSpeed b.speed ∧
        7 / 10 ≤ call.speed ∧ call.speed ≤ 12 / 10) ∧
    (200 ≤ us ∧ us ≤ 299 →
      (serveTts true (some b) us bytes).1 = { status := 200, body := .audio bytes }) ∧
    (us = 429 →
      (serveTts true (some b) us bytes).1.status = 429 ∧
      (serveTts true (some b) us bytes).1.body
          = .jsonError "Rate limit exceeded. Please try again later.") ∧
    (¬ (200 ≤ us ∧ us ≤ 299) → us ≠ 429 →
      (serveTts true (some b) us bytes).1
          = { status := 500, body := .jsonError "TTS generation failed" }) := by
  refine ⟨?_, ?_, ?_, ?_⟩
  · intro call hc
    rw [serveTts_call b us bytes ht] at hc
    simp only [Option.mem_def, Option.some.injEq] at hc
    subst hc
    refine ⟨rfl, ?_, rfl, le_max_left _ _, ?_⟩
    · simp [List.length_take]
    · exact max_le (by norm_num) (min_le_left _ _)
  · intro hok
    unfold serveTts
    simp [ht, hok]
  · intro h429
    subst h429
    unfold serveTts
    norm_num [ht]
  · intro hok h429
    unfold serveTts
    simp [ht, hok, h429]

/-- C8 witness: a 6000-character text at client speed 2 with an upstream
429. -/
theorem serveTts_contract_witness :
    (∀ call ∈ (serveTts true (some { text := List.replicate 6000 'a', speed := 2 }) 429 []).2,
        call.text = (List.replicate 6000 'a').take 5000 ∧ call.text.length ≤ 5000 ∧
        call.speed = clampSpeed 2 ∧ 7 / 10 ≤ call.speed ∧ call.speed ≤ 12 / 10) ∧
    (serveTts true (some { text := List.replicate 6000 'a', speed := 2 }) 429 []).1.status
        = 429 ∧
    (serveTts true (some { text := List.replicate 6000 'a', speed := 2 }) 429 []).1.body
        = .jsonError "Rate limit exceeded. Please try again later." :=
  have h := serveTts_contract { text := List.replicate 6000 'a', speed := 2 } 429 []
    (by
      intro hnil
      have hlen : (List.replicate 6000 'a').length = 6000 := List.length_replicate _ _
      have hnil2 : List.replicate 6000 'a' = [] := hnil
      rw [hnil2] at hlen
      exact absurd hlen (by decide))
  ⟨h.1, (h.2.2.1 rfl).1, (h.2.2.1 rfl).2⟩

/-- C3 counterexample: with maxLen 10, the text "aaaaaaa.bbbb.cccc." has no
sentence longer than 10 characters, yet the second produced chunk
("bbbb. cccc.") is 11 characters long — the guard measures the buffer
without the joining space the append then adds; and for the empty input the
single produced chunk is the empty string. -/
theorem chunkText_claim3_counterexample :
    (∀ s ∈ sentencesOf "aaaaaaa.bbbb.cccc.".toList, s.length ≤ 10) ∧
    (∃ c ∈ chunkText "aaaaaaa.bbbb.cccc.".toList 10, 10 < c.length) ∧
    ([] : List Char) ∈ chunkText "".toList 200 := by
  decide

/-- C3 amended: every chunk is either at most maxLen + 1 characters long (one
more than the claimed bound, because the guard tests the concatenation
without the joining space) or is a single source sentence — trimmed or, in
the no-match fallback, verbatim — so an over-long sentence is emitted as its
own oversized chunk, never split; and a chunk can only be empty for the empty
input (whose single chunk is the input itself). -/
theorem chunkText_chunk_bounds (t : List Char) (maxLen : Nat) :
    ∀ c ∈ chunkText t maxLen,
      (c.length ≤ maxLen + 1 ∨ ∃ s ∈ sentencesOf t, c = trimChars s ∨ c = s) ∧
      (c = [] → t = []) := by
  intro c hc
  by_cases hm : matchSentences t = []
  · have hsent : sentencesOf t = [t] := by simp [sentencesOf, hm]
    have hcomp : chunkText t maxLen = if trimChars t = [] then [t] else [trimChars t] := by
      unfold chunkText
      rw [hsent, chunkAux_single]
      by_cases htr : trimChars t = []
      · rw [if_pos htr, if_pos htr, if_pos rfl]
      · rw [if_neg htr, if_neg htr, if_neg (by simp)]
    rw [hcomp] at hc
    by_cases htr : trimChars t = []
    · rw [if_pos htr] at hc
      rw [List.mem_singleton.mp hc]
      refine ⟨Or.inr ⟨t, ?_, Or.inr rfl⟩, fun h => h⟩
      rw [hsent]
      exact List.mem_singleton_self t
    · rw [if_neg htr] at hc
      rw [List.mem_singleton.mp hc]
      refine ⟨Or.inr ⟨t, ?_, Or.inl rfl⟩, fun h => absurd h htr⟩
      rw [hsent]
      exact List.mem_singleton_self t
  · have hsent : sentencesOf t = matchSentences t := by simp [sentencesOf, hm]
    have hterm : ∀ s ∈ sentencesOf t, ∃ ch ∈ s, isTerm ch = true := by
      intro s hs
      rw [hsent] at hs
      exact sentencesGo_has_term t [] [] (by intro x hx; cases hx) s hs
    have hne : chunkAux maxLen (sentencesOf t) [] [] ≠ [] := by
      apply chunkAux_ne_nil maxLen (sentencesOf t) [] [] hterm
      left
      rw [hsent]
      exact hm
    have hct : chunkText t maxLen = chunkAux maxLen (sentencesOf t) [] [] := by
      unfold chunkText
      rw [if_neg hne]
    rw [hct] at hc
    constructor
    · have hmem := chunkAux_mem_spec maxLen (sentencesOf t) (sentencesOf t) [] []
        (fun s hs => hs) (Or.inl rfl) (by intro x hx; cases hx) c hc
      rcases hmem with h | ⟨s, hs, heq⟩
      · exact Or.inl h
      · exact Or.inr ⟨s, hs, Or.inl heq⟩
    · intro hce
      exact absurd hce (chunkAux_mem_ne_nil maxLen (sentencesOf t) [] []
        hterm (Or.inl rfl) (by intro x hx; cases hx) c hc)

/-- C3 amended witness: the single chunk of "ab." satisfies the bounds. -/
theorem chunkText_chunk_bounds_witness :
    ("ab.".toList ∈ chunkText "ab.".toList 200) ∧
    (("ab.".toList.length ≤ 200 + 1 ∨
        ∃ s ∈ sentencesOf "ab.".toList, "ab.".toList = trimChars s ∨ "ab.".toList = s) ∧
      ("ab.".toList = [] → "ab.".toList = [])) :=
  ⟨by decide, chunkText_chunk_bounds "ab.".toList 200 "ab.".toList (by decide)⟩

/-- C4 counterexample: chunking drops non-whitespace content.  For the text
"ab. cd" (no terminal punctuation after "cd") the chunker returns ["ab."],
so the character 'c' of the input never appears in the concatenated
chunks. -/
theorem chunkText_claim4_counterexample :
    chunkText "ab. cd".toList 200 = ["ab.".toList] ∧
    'c' ∈ nonWsChars "ab. cd".toList ∧
    'c' ∉ nonWsChars (chunkText "ab. cd".toList 200).flatten := by
  decide

/-- C4 amended: concatenating the chunks reconstructs, character for
character and in order, the non-whitespace content of the matched sentence
units (so nothing inside a sentence is dropped or reordered, and chunk
boundaries only normalize whitespace); the sentence-matching step itself is
order-preserving but partial — the concatenation of the matches is a sublist
of T, and what lies outside every match (a trailing fragment with no terminal
punctuation, or terminal characters before any match body) is dropped.  When
there is no match at all, chunk(T) = [T] and nothing is lost. -/
theorem chunkText_reconstruction (t : List Char) (maxLen : Nat) :
    nonWsChars (chunkText t maxLen).flatten = nonWsChars (sentencesOf t).flatten ∧
    (matchSentences t).flatten.Sublist t := by
  constructor
  · by_cases hm : matchSentences t = []
    · have hsent : sentencesOf t = [t] := by simp [sentencesOf, hm]
      unfold chunkText
      rw [hsent, chunkAux_single]
      by_cases htr : trimChars t = []
      · rw [if_pos htr, if_pos rfl]
      · rw [if_neg htr, if_neg (by simp)]
        simp [nonWs_trim]
    · have hsent : sentencesOf t = matchSentences t := by simp [sentencesOf, hm]
      have hterm : ∀ s ∈ sentencesOf t, ∃ ch ∈ s, isTerm ch = true := by
        intro s hs
        rw [hsent] at hs
        exact sentencesGo_has_term t [] [] (by intro x hx; cases hx) s hs
      have hne : chunkAux maxLen (sentencesOf t) [] [] ≠ [] := by
        apply chunkAux_ne_nil maxLen (sentencesOf t) [] [] hterm
        left
        rw [hsent]
        exact hm
      unfold chunkText
      rw [if_neg hne]
      rw [chunkAux_flatten_filter maxLen (sentencesOf t) [] []]
      simp [nonWs_nil]
  · simpa using sentencesGo_join_sublist t [] []

/-- C10: for an input with at least one non-whitespace character,
`smartSplitParagraphs` returns a non-empty list whose every element is
non-empty and carries no leading or trailing whitespace (trimming it again
changes nothing); for a whitespace-only input it returns the empty list. -/
theorem smartSplitParagraphs_clean (t : List Char) :
    ((∃ c ∈ t, isWs c = false) →
      smartSplitParagraphs t ≠ [] ∧
      ∀ p ∈ smartSplitParagraphs t, p ≠ [] ∧ trimChars p = p) ∧
    ((∀ c ∈ t, isWs c = true) → smartSplitParagraphs t = []) :=
  ⟨fun h => ⟨smartSplit_ne_nil h, smartSplit_mem t⟩, fun h => smartSplit_ws h⟩

/-- C10 witness: "Hi." yields clean paragraphs, two spaces yield none. -/
theorem smartSplitParagraphs_clean_witness :
    (smartSplitParagraphs "Hi.".toList ≠ [] ∧
      ∀ p ∈ smartSplitParagraphs "Hi.".toList, p ≠ [] ∧ trimChars p = p) ∧
    smartSplitParagraphs "  ".toList = [] :=
  ⟨(smartSplitParagraphs_clean "Hi.".toList).1 (by decide),
   (smartSplitParagraphs_clean "  ".toList).2 (by decide)⟩
